import Mathlib

/-!
Verification of the MSU 2024 rocket stabilization firmware (`src/main.cpp`)
against its natural-language specification.

C `float` arithmetic is idealized as real arithmetic.  The C library
functions used by the firmware (`fmodf`, `fabsf`, `atan2f`, `sqrt`, and
`snprintf` with the `"%f"` format) are modelled explicitly below; everything
else is a direct translation of the corresponding function in `main.cpp`.
-/

namespace StabSys

open Real

/-- Model of C truncation toward zero, as used by `fmodf`. -/
noncomputable def truncZ (r : ℝ) : ℤ := if 0 ≤ r then ⌊r⌋ else ⌈r⌉

/-- Model of C `fmodf`: `fmodf x y = x - y * trunc (x / y)` (the result is
exact in IEEE arithmetic, so the real-valued model is faithful for finite
arguments with `y ≠ 0`). -/
noncomputable def fmodf (x y : ℝ) : ℝ := x - y * truncZ (x / y)

/-- The `PI` macro (main.cpp line 39), idealized as the real `π`. -/
noncomputable def PI : ℝ := Real.pi

/-- `DEG2RAD` constant (main.cpp line 41). -/
noncomputable def DEG2RAD : ℝ := PI / 180

/-- `RAD2DEG` constant (main.cpp line 42). -/
noncomputable def RAD2DEG : ℝ := 180 / PI

/-- `PI2` constant (main.cpp line 43). -/
noncomputable def PI2 : ℝ := 2 * PI

/-- `fixDegree` (main.cpp lines 81-85): add half a rotation if negative,
take the absolute value, then reduce modulo 360. -/
noncomputable def fixDegree (degrees : ℝ) : ℝ :=
  fmodf |if degrees < 0 then degrees + 180 else degrees| 360

/-- `fixRadian` (main.cpp lines 91-95): add half a rotation if negative,
take the absolute value, then reduce modulo `2 * PI`. -/
noncomputable def fixRadian (radians : ℝ) : ℝ :=
  fmodf |if radians < 0 then radians + PI else radians| PI2

lemma fmodf_eq_sub_floor (x y : ℝ) (hx : 0 ≤ x) (hy : 0 < y) :
    fmodf x y = x - y * ⌊x / y⌋ := by
  unfold fmodf truncZ
  rw [if_pos (div_nonneg hx hy.le)]

lemma fmodf_mem_Ico (x y : ℝ) (hx : 0 ≤ x) (hy : 0 < y) :
    0 ≤ fmodf x y ∧ fmodf x y < y := by
  have hrw : fmodf x y = y * Int.fract (x / y) := by
    rw [fmodf_eq_sub_floor x y hx hy, Int.fract, mul_sub, mul_div_cancel₀ _ hy.ne']
  constructor
  · rw [hrw]
    exact mul_nonneg hy.le (Int.fract_nonneg _)
  · rw [hrw]
    calc y * Int.fract (x / y) < y * 1 :=
          mul_lt_mul_of_pos_left (Int.fract_lt_one _) hy
      _ = y := mul_one y

lemma fmodf_self_of_lt (x y : ℝ) (hx : 0 ≤ x) (hxy : x < y) : fmodf x y = x := by
  have hy : 0 < y := lt_of_le_of_lt hx hxy
  rw [fmodf_eq_sub_floor x y hx hy]
  have h0 : ⌊x / y⌋ = 0 := by
    rw [Int.floor_eq_zero_iff]
    exact ⟨div_nonneg hx hy.le, (div_lt_one hy).mpr hxy⟩
  rw [h0]
  simp

lemma fixRadian_mem_Ico (x : ℝ) : 0 ≤ fixRadian x ∧ fixRadian x < 2 * π := by
  have h := fmodf_mem_Ico |if x < 0 then x + PI else x| PI2 (abs_nonneg _)
    (by unfold PI2 PI; positivity)
  simpa [fixRadian, PI2, PI] using h

lemma fixRadian_eq_self (x : ℝ) (h0 : 0 ≤ x) (h2 : x < 2 * π) : fixRadian x = x := by
  unfold fixRadian
  rw [if_neg (not_lt.mpr h0), abs_of_nonneg h0]
  exact fmodf_self_of_lt x PI2 h0 (by unfold PI2 PI; linarith)

/-- Claim C9: the radian normalizer is idempotent: for every input `x`,
`fixRadian (fixRadian x) = fixRadian x`. -/
theorem claim_C9_fixRadian_idempotent (x : ℝ) :
    fixRadian (fixRadian x) = fixRadian x := by
  obtain ⟨h0, h2⟩ := fixRadian_mem_Ico x
  exact fixRadian_eq_self _ h0 h2

lemma fixDegree_mem_Ico (x : ℝ) : 0 ≤ fixDegree x ∧ fixDegree x < 360 := by
  have h := fmodf_mem_Ico |if x < 0 then x + 180 else x| 360 (abs_nonneg _)
    (by norm_num)
  simpa [fixDegree] using h

lemma fmodf_mul_right (a b c : ℝ) (hc : 0 < c) :
    fmodf (a * c) (b * c) = fmodf a b * c := by
  unfold fmodf
  rw [mul_div_mul_right a b hc.ne']
  ring

lemma fixDegree_scale (x : ℝ) : fixDegree x * (π / 180) = fixRadian (x * (π / 180)) := by
  have hc : (0 : ℝ) < π / 180 := by positivity
  have hiff : x * (π / 180) < 0 ↔ x < 0 := by
    constructor <;> intro h <;> nlinarith
  unfold fixDegree fixRadian PI2 PI
  rw [← fmodf_mul_right _ _ _ hc]
  congr 1
  · by_cases hx : x < 0
    · rw [if_pos hx, if_pos (hiff.mpr hx)]
      have harg : x * (π / 180) + π = (x + 180) * (π / 180) := by
        field_simp
        ring
      rw [harg, abs_mul, abs_of_nonneg hc.le]
    · rw [if_neg hx, if_neg (fun h => hx (hiff.mp h)), abs_mul, abs_of_nonneg hc.le]
  · field_simp
    ring

lemma fixRadian_of_nonneg (x : ℝ) (h0 : 0 ≤ x) :
    fixRadian x = x - 2 * π * ⌊x / (2 * π)⌋ := by
  unfold fixRadian PI2 PI
  rw [if_neg (not_lt.mpr h0), abs_of_nonneg h0]
  exact fmodf_eq_sub_floor x (2 * π) h0 two_pi_pos

lemma fixRadian_of_neg_of_le (x : ℝ) (h1 : -π ≤ x) (h0 : x < 0) :
    fixRadian x = x + π := by
  unfold fixRadian PI2 PI
  rw [if_pos h0, abs_of_nonneg (by linarith)]
  exact fmodf_self_of_lt _ _ (by linarith) (by nlinarith [pi_pos])

lemma fixRadian_of_lt_neg_pi (x : ℝ) (h : x < -π) :
    fixRadian x = -(x + π) - 2 * π * ⌊(-(x + π)) / (2 * π)⌋ := by
  unfold fixRadian PI2 PI
  rw [if_pos (by nlinarith [pi_pos]), abs_of_neg (by linarith)]
  exact fmodf_eq_sub_floor _ _ (by linarith) two_pi_pos

/-- Claim C3 (amended): for every real `x` the radian normalizer returns a
value in `[0, 2π)` (and the degree normalizer a value in `[0, 360)`), and its
value is characterized piecewise: for `x ≥ 0` it is `x` reduced modulo `2π`;
for `-π ≤ x < 0` it is `x + π` (the half-turn shift); for `x < -π` it is
`-(x + π)` reduced modulo `2π` (a reflection, not a shift, of `x`); and
`fixDegree` applies the identical algorithm shape, in the sense that
`fixDegree x` scaled by `π/180` equals `fixRadian` of `x` scaled by `π/180`. -/
theorem claim_C3_normalizer_characterization (x : ℝ) :
    (0 ≤ fixRadian x ∧ fixRadian x < 2 * π) ∧
    (0 ≤ fixDegree x ∧ fixDegree x < 360) ∧
    (0 ≤ x → fixRadian x = x - 2 * π * ⌊x / (2 * π)⌋) ∧
    (-π ≤ x → x < 0 → fixRadian x = x + π) ∧
    (x < -π → fixRadian x = -(x + π) - 2 * π * ⌊(-(x + π)) / (2 * π)⌋) ∧
    fixDegree x * (π / 180) = fixRadian (x * (π / 180)) :=
  ⟨fixRadian_mem_Ico x, fixDegree_mem_Ico x, fixRadian_of_nonneg x,
    fixRadian_of_neg_of_le x, fixRadian_of_lt_neg_pi x, fixDegree_scale x⟩

/-- Witness for the amended claim C3 at the concrete input `x = -1`. -/
theorem claim_C3_normalizer_characterization_witness :
    (-π ≤ (-1 : ℝ) ∧ (-1 : ℝ) < 0) ∧ fixRadian (-1) = -1 + π :=
  ⟨⟨by nlinarith [pi_gt_three], by norm_num⟩,
    (claim_C3_normalizer_characterization (-1)).2.2.2.1
      (by nlinarith [pi_gt_three]) (by norm_num)⟩

lemma fixRadian_neg_four : fixRadian (-4) = 4 - π := by
  unfold fixRadian PI2 PI
  rw [if_pos (by norm_num), abs_of_neg (by nlinarith [pi_lt_d2])]
  rw [fmodf_self_of_lt _ _ (by nlinarith [pi_lt_d2]) (by nlinarith [pi_gt_three])]
  ring

/-- Counterexample to claim C3 as stated: at `x = -4` the normalized value
`fixRadian (-4) = 4 - π` is congruent modulo `2π` neither to `x` nor to `x`
shifted by a half turn. -/
theorem claim_C3_counterexample :
    ¬ ∃ k : ℤ, fixRadian (-4) = -4 + 2 * π * k ∨ fixRadian (-4) = -4 + π + 2 * π * k := by
  rw [fixRadian_neg_four]
  rintro ⟨k, hk | hk⟩
  · have hk0 : (0 : ℝ) < (k : ℝ) := by
      by_contra h
      push_neg at h
      have hnp : 2 * π * (k : ℝ) ≤ 0 :=
        mul_nonpos_of_nonneg_of_nonpos two_pi_pos.le h
      nlinarith [pi_lt_d2]
    have hk1 : ((k : ℝ)) < 1 := by
      by_contra h
      push_neg at h
      have h2 : 2 * π * 1 ≤ 2 * π * (k : ℝ) :=
        mul_le_mul_of_nonneg_left h two_pi_pos.le
      nlinarith [pi_gt_three]
    have : (0 : ℤ) < k ∧ k < 1 := ⟨by exact_mod_cast hk0, by exact_mod_cast hk1⟩
    omega
  · have hk0 : (0 : ℝ) < (k : ℝ) := by
      by_contra h
      push_neg at h
      have hnp : 2 * π * (k : ℝ) ≤ 0 :=
        mul_nonpos_of_nonneg_of_nonpos two_pi_pos.le h
      nlinarith [pi_lt_d2]
    have hk1 : ((k : ℝ)) < 1 := by
      by_contra h
      push_neg at h
      have h2 : 2 * π * 1 ≤ 2 * π * (k : ℝ) :=
        mul_le_mul_of_nonneg_left h two_pi_pos.le
      nlinarith [pi_gt_three]
    have : (0 : ℤ) < k ∧ k < 1 := ⟨by exact_mod_cast hk0, by exact_mod_cast hk1⟩
    omega

/-- Model of C `atan2f y x` (principal value in `(-π, π]`; `atan2f 0 0 = 0`
as in the C library). -/
noncomputable def atan2 (y x : ℝ) : ℝ :=
  if 0 < x then Real.arctan (y / x)
  else if x < 0 then
    (if 0 ≤ y then Real.arctan (y / x) + π else Real.arctan (y / x) - π)
  else
    (if 0 < y then π / 2 else if y < 0 then -(π / 2) else 0)

/-- One raw sensor sample (the `accX/Y/Z`, `magX/Y/Z` readings pulled from
the ICM-20948 in `SetOrientationFromSensors`, main.cpp lines 181-187). -/
structure SensorSample where
  accX : ℝ
  accY : ℝ
  accZ : ℝ
  magX : ℝ
  magY : ℝ
  magZ : ℝ

/-- The `Rocket` namespace globals (main.cpp lines 104-109). -/
structure RocketState where
  pitch : ℝ
  roll : ℝ
  yaw : ℝ
  canard_rotations : Fin 4 → ℝ

/-- The initial values of the `Rocket` globals: all angles zero. -/
def initState : RocketState :=
  { pitch := 0, roll := 0, yaw := 0, canard_rotations := fun _ => 0 }

/-- `SetOrientation` (main.cpp lines 142-146). -/
def SetOrientation (pitch roll yaw : ℝ) (st : RocketState) : RocketState :=
  { st with pitch := pitch, roll := roll, yaw := yaw }

/-- `SetCanardRotations` (main.cpp lines 164-169): normalize each of the 4
given rotations and store it. -/
noncomputable def SetCanardRotations (rad : Fin 4 → ℝ) (st : RocketState) : RocketState :=
  { st with canard_rotations := fun i => fixRadian (rad i) }

/-- `SetOrientationFromSensors` (main.cpp lines 175-203).  The sensor
collaborator is modelled by the data-ready flag `ready` and the sample `s`;
`deltaTime` is accepted but unused, as in the source. -/
noncomputable def SetOrientationFromSensors (deltaTime : ℝ) (ready : Bool)
    (s : SensorSample) (st : RocketState) : RocketState :=
  if ready then
    let roll_a := atan2 s.accY s.accZ
    let pitch_a := atan2 (-s.accX) (Real.sqrt (s.accY * s.accY + s.accZ * s.accZ))
    let yaw_m := atan2 s.magY s.magX
    -- main.cpp lines 195-197: the locals `pitch` and `roll` are BOTH
    -- assigned `roll_a`; `pitch_a` is computed but never stored.
    let pitch := roll_a
    let roll := roll_a
    let yaw := yaw_m
    SetOrientation (fixRadian pitch) (fixRadian roll) (fixRadian yaw) st
  else st

/-- `StabilizationSystem` (main.cpp lines 224-231): rotate each canard by
24 degrees per second, converted to radians, then normalize. -/
noncomputable def StabilizationSystem (deltaTime : ℝ) (st : RocketState) : RocketState :=
  { st with canard_rotations :=
      fun i => fixRadian (st.canard_rotations i + 24 * DEG2RAD * deltaTime) }

/-- The per-tick environment of `loop` (main.cpp lines 259-277): the computed
`deltaTime` and the sensor collaborator's responses for this tick. -/
structure TickInput where
  deltaTime : ℝ
  ready : Bool
  sample : SensorSample

/-- The state mutation performed by one iteration of `loop` (main.cpp lines
259-277): the sensor-driven orientation update followed unconditionally by
the stabilization law.  `SendDataToSerial` (SIM mode) reads but does not
mutate the state. -/
noncomputable def loopTick (inp : TickInput) (st : RocketState) : RocketState :=
  StabilizationSystem inp.deltaTime
    (SetOrientationFromSensors inp.deltaTime inp.ready inp.sample st)

/-- Iterating `loop` from a given state over a list of tick inputs. -/
noncomputable def runFrom (st : RocketState) : List TickInput → RocketState
  | [] => st
  | inp :: rest => runFrom (loopTick inp st) rest

/-- The state of the program after any finite sequence of loop iterations,
starting from the initial values of the `Rocket` globals. -/
noncomputable def run (inputs : List TickInput) : RocketState :=
  runFrom initState inputs

/-- A placeholder sensor sample used for concrete witnesses. -/
def zeroSample : SensorSample :=
  { accX := 0, accY := 0, accZ := 0, magX := 0, magY := 0, magZ := 0 }

lemma loopTick_canard (inp : TickInput) (st : RocketState) (i : Fin 4) :
    (loopTick inp st).canard_rotations i
      = fixRadian (st.canard_rotations i + 24 * DEG2RAD * inp.deltaTime) := by
  unfold loopTick StabilizationSystem SetOrientationFromSensors SetOrientation
  by_cases hr : inp.ready <;> simp [hr]

lemma loopTick_pitch_eq_roll (inp : TickInput) (st : RocketState)
    (h : st.pitch = st.roll) : (loopTick inp st).pitch = (loopTick inp st).roll := by
  unfold loopTick StabilizationSystem SetOrientationFromSensors SetOrientation
  by_cases hr : inp.ready <;> simp [hr, h]

lemma runFrom_pitch_eq_roll (inputs : List TickInput) :
    ∀ st : RocketState, st.pitch = st.roll →
      (runFrom st inputs).pitch = (runFrom st inputs).roll := by
  induction inputs with
  | nil => intro st h; exact h
  | cons inp rest ih =>
      intro st h
      exact ih (loopTick inp st) (loopTick_pitch_eq_roll inp st h)

/-- Claim C2: in every state reachable by the program, the `pitch` field
equals the `roll` field: both start at 0 and every sensor update stores the
normalized roll formula `atan2f(accY, accZ)` into both; the separately
computed pitch formula is never stored. -/
theorem claim_C2_pitch_eq_roll_invariant (inputs : List TickInput) :
    (run inputs).pitch = (run inputs).roll :=
  runFrom_pitch_eq_roll inputs initState rfl

/-- Evaluation of the code at the failing input for claim C1: with
`accX = 1, accY = 0, accZ = 1` (and `magX = 1, magY = 0`) the code stores
`fixRadian (atan2 accY accZ) = 0` into `pitch`, whereas the claimed pitch
formula `atan2 (-accX) (sqrt (accY^2 + accZ^2))` normalizes to `3π/4 ≠ 0`. -/
theorem claim_C1_code_evaluation :
    (SetOrientationFromSensors 1 true
        { accX := 1, accY := 0, accZ := 1, magX := 1, magY := 0, magZ := 0 }
        initState).pitch = 0 ∧
    fixRadian (atan2 (-(1 : ℝ)) (Real.sqrt (0 * 0 + 1 * 1))) = 3 * π / 4 ∧
    (0 : ℝ) ≠ 3 * π / 4 := by
  have hatan01 : atan2 (0 : ℝ) 1 = 0 := by
    unfold atan2
    rw [if_pos one_pos]
    norm_num
  have hsqrt : Real.sqrt ((0 : ℝ) * 0 + 1 * 1) = 1 := by
    norm_num
  have hatan : atan2 (-(1 : ℝ)) 1 = -(π / 4) := by
    unfold atan2
    rw [if_pos one_pos]
    norm_num [Real.arctan_neg, Real.arctan_one]
  refine ⟨?_, ?_, ?_⟩
  · unfold SetOrientationFromSensors SetOrientation
    simp only [if_pos]
    simp [hatan01, fixRadian_eq_self 0 le_rfl two_pi_pos]
  · rw [hsqrt, hatan, fixRadian_of_neg_of_le _ (by linarith [pi_pos]) (by linarith [pi_pos])]
    ring
  · have : (0 : ℝ) < 3 * π / 4 := by positivity
    exact this.ne

/-- Claim C4: the stabilization law increments each of the 4 canard angles by
`24°/s × deltaTime` in radians then normalizes it, unconditionally on every
tick; from all-zero canards, one tick with `deltaTime = 1` leaves each canard
at `24 * DEG2RAD` radians; and after every invocation each canard angle lies
in `[0, 2π)`. -/
theorem claim_C4_stabilization_law :
    (∀ (inp : TickInput) (st : RocketState) (i : Fin 4),
        (loopTick inp st).canard_rotations i
          = fixRadian (st.canard_rotations i + 24 * DEG2RAD * inp.deltaTime)) ∧
    (∀ (ready : Bool) (s : SensorSample) (i : Fin 4),
        (loopTick { deltaTime := 1, ready := ready, sample := s } initState).canard_rotations i
          = 24 * DEG2RAD) ∧
    (∀ (dt : ℝ) (st : RocketState) (i : Fin 4),
        0 ≤ (StabilizationSystem dt st).canard_rotations i ∧
          (StabilizationSystem dt st).canard_rotations i < 2 * π) := by
  refine ⟨loopTick_canard, ?_, ?_⟩
  · intro ready s i
    rw [loopTick_canard]
    have h1 : (initState.canard_rotations i + 24 * DEG2RAD * (1 : ℝ)) = 24 * DEG2RAD := by
      show (0 : ℝ) + 24 * DEG2RAD * 1 = 24 * DEG2RAD
      ring
    rw [h1]
    exact fixRadian_eq_self _ (by unfold DEG2RAD PI; positivity)
      (by unfold DEG2RAD PI; nlinarith [pi_pos])
  · intro dt st i
    exact fixRadian_mem_Ico _

lemma loopTick_not_ready_orientation (inp : TickInput) (st : RocketState)
    (h : inp.ready = false) :
    (loopTick inp st).pitch = st.pitch ∧ (loopTick inp st).roll = st.roll ∧
      (loopTick inp st).yaw = st.yaw := by
  unfold loopTick StabilizationSystem SetOrientationFromSensors
  simp [h]

/-- Claim C6: over any run of ticks on which the sensor reports no fresh data,
the orientation fields are not mutated (they hold their previous values),
while on every such tick each canard angle still advances by the normalized
sweep increment. -/
theorem claim_C6_no_data_no_orientation_change (st : RocketState)
    (inputs : List TickInput) (h : ∀ inp ∈ inputs, inp.ready = false) :
    ((runFrom st inputs).pitch = st.pitch ∧ (runFrom st inputs).roll = st.roll ∧
      (runFrom st inputs).yaw = st.yaw) ∧
    ∀ (st' : RocketState) (inp : TickInput), inp.ready = false → ∀ i : Fin 4,
      (loopTick inp st').canard_rotations i
        = fixRadian (st'.canard_rotations i + 24 * DEG2RAD * inp.deltaTime) := by
  refine ⟨?_, fun st' inp _ i => loopTick_canard inp st' i⟩
  induction inputs generalizing st with
  | nil => exact ⟨rfl, rfl, rfl⟩
  | cons inp rest ih =>
      have hready : inp.ready = false := h inp (List.mem_cons_self inp rest)
      obtain ⟨hp, hr, hy⟩ := loopTick_not_ready_orientation inp st hready
      have hrest := ih (loopTick inp st) fun i hi => h i (List.mem_cons_of_mem inp hi)
      exact ⟨hrest.1.trans hp, hrest.2.1.trans hr, hrest.2.2.trans hy⟩

/-- Witness for claim C6: 5 consecutive ticks with no data-ready signal leave
pitch, roll and yaw at their initial values. -/
theorem claim_C6_no_data_no_orientation_change_witness :
    (runFrom initState
        (List.replicate 5 { deltaTime := 1, ready := false, sample := zeroSample })).pitch
        = initState.pitch ∧
    (runFrom initState
        (List.replicate 5 { deltaTime := 1, ready := false, sample := zeroSample })).roll
        = initState.roll ∧
    (runFrom initState
        (List.replicate 5 { deltaTime := 1, ready := false, sample := zeroSample })).yaw
        = initState.yaw :=
  (claim_C6_no_data_no_orientation_change initState _
    (fun inp hm => by rw [List.eq_of_mem_replicate hm])).1

/-- The program invariant of claim C7, for a single angle value. -/
def angleOK (a : ℝ) : Prop := 0 ≤ a ∧ a < 2 * π

lemma angleOK_fixRadian (x : ℝ) : angleOK (fixRadian x) := fixRadian_mem_Ico x

lemma loopTick_anglesOK (inp : TickInput) (st : RocketState)
    (h : angleOK st.pitch ∧ angleOK st.roll ∧ angleOK st.yaw) :
    (angleOK (loopTick inp st).pitch ∧ angleOK (loopTick inp st).roll ∧
        angleOK (loopTick inp st).yaw) ∧
      ∀ i : Fin 4, angleOK ((loopTick inp st).canard_rotations i) := by
  constructor
  · unfold loopTick StabilizationSystem SetOrientationFromSensors SetOrientation
    by_cases hr : inp.ready <;>
      simp [hr, angleOK_fixRadian, h.1, h.2.1, h.2.2]
  · intro i
    rw [loopTick_canard]
    exact angleOK_fixRadian _

lemma runFrom_anglesOK (inputs : List TickInput) :
    ∀ st : RocketState,
      (angleOK st.pitch ∧ angleOK st.roll ∧ angleOK st.yaw) →
      (∀ i : Fin 4, angleOK (st.canard_rotations i)) →
      (angleOK (runFrom st inputs).pitch ∧ angleOK (runFrom st inputs).roll ∧
          angleOK (runFrom st inputs).yaw) ∧
        ∀ i : Fin 4, angleOK ((runFrom st inputs).canard_rotations i) := by
  induction inputs with
  | nil => intro st h hc; exact ⟨h, hc⟩
  | cons inp rest ih =>
      intro st h hc
      obtain ⟨h', hc'⟩ := loopTick_anglesOK inp st h
      exact ih (loopTick inp st) h' hc'

/-- Claim C7: in every reachable state of the program, every stored angle
(pitch, roll, yaw and all 4 canard rotations) lies in `[0, 2π)`. -/
theorem claim_C7_angles_in_range (inputs : List TickInput) :
    (0 ≤ (run inputs).pitch ∧ (run inputs).pitch < 2 * π) ∧
    (0 ≤ (run inputs).roll ∧ (run inputs).roll < 2 * π) ∧
    (0 ≤ (run inputs).yaw ∧ (run inputs).yaw < 2 * π) ∧
    ∀ i : Fin 4,
      0 ≤ (run inputs).canard_rotations i ∧ (run inputs).canard_rotations i < 2 * π := by
  have hinit : angleOK initState.pitch ∧ angleOK initState.roll ∧ angleOK initState.yaw :=
    ⟨⟨le_refl 0, two_pi_pos⟩, ⟨le_refl 0, two_pi_pos⟩, ⟨le_refl 0, two_pi_pos⟩⟩
  have hc : ∀ i : Fin 4, angleOK (initState.canard_rotations i) :=
    fun i => ⟨le_refl 0, two_pi_pos⟩
  obtain ⟨⟨hp, hr, hy⟩, hcan⟩ := runFrom_anglesOK inputs initState hinit hc
  exact ⟨hp, hr, hy, hcan⟩

/-- The NUL byte used to terminate C strings. -/
def nul : Char := Char.ofNat 0

/-- A decimal digit character, as produced by the C library's `"%f"`
conversion (the low decimal digit of `n`). -/
def digitChar (n : ℕ) : Char := Char.ofNat (48 + n % 10)

/-- Decimal digits of the integer part of a `"%f"` conversion, most
significant first (fuel-based so that it reduces definitionally). -/
def intCharsAux : ℕ → ℕ → List Char
  | 0, _ => []
  | fuel + 1, n =>
      if n < 10 then [digitChar n]
      else intCharsAux fuel (n / 10) ++ [digitChar (n % 10)]

/-- Decimal digits of a natural number, most significant first. -/
def intChars (n : ℕ) : List Char := intCharsAux (n + 1) n

/-- The 6 fractional digits of a `"%f"` conversion (default precision). -/
def fracChars (n : ℕ) : List Char :=
  [digitChar (n / 100000), digitChar (n / 10000), digitChar (n / 1000),
   digitChar (n / 100), digitChar (n / 10), digitChar n]

/-- `"%f"` text of a nonnegative value: with `n` the value rounded to
millionths, the digits of `n / 10^6`, a decimal point, and the 6 digits of
`n % 10^6`. -/
noncomputable def fmtAbs (x : ℝ) : List Char :=
  intChars ((⌊x * 1000000 + 1 / 2⌋).toNat / 1000000)
    ++ '.' :: fracChars ((⌊x * 1000000 + 1 / 2⌋).toNat % 1000000)

/-- Model of the C library's `snprintf` `"%f"` conversion at default
precision (6 fractional digits, rounded to nearest): the serializer's only
formatting collaborator. -/
noncomputable def fmtF (x : ℝ) : List Char :=
  if x < 0 then '-' :: fmtAbs (-x) else fmtAbs x

/-- The bytes `snprintf(dst, size, "%f", v)` stores starting at `dst`: at
most `size - 1` characters of the formatted text, then a terminating NUL;
nothing at all when `size = 0`. -/
def snprintfChars (size : ℕ) (text : List Char) : List Char :=
  if size = 0 then [] else text.take (size - 1) ++ [nul]

/-- Store `data` into `buf` byte for byte starting at offset `off`. -/
def writeAt (buf : List Char) (off : ℕ) : List Char → List Char
  | [] => buf
  | c :: cs => writeAt (buf.set off c) (off + 1) cs

/-- `PackFloatsInStr` (main.cpp lines 67-75), parametrized by the formatting
collaborator `fmt`: for each float, while at least `float_chars` bytes of
budget remain, `snprintf` the float at the current position, then advance the
position by `float_chars` and shrink the budget by `float_chars`.  Returns
the final buffer together with the list of `(offset, bytes)` stores
performed, one per packed float. -/
def PackFloatsInStr (fmt : ℝ → List Char) :
    List Char → ℕ → ℕ → List ℝ → ℕ → List Char × List (ℕ × List Char)
  | buf, _, _, [], _ => (buf, [])
  | buf, off, size, f :: rest, float_chars =>
      if float_chars ≤ size then
        let data := snprintfChars size (fmt f)
        let r := PackFloatsInStr fmt (writeAt buf off data) (off + float_chars)
          (size - float_chars) rest float_chars
        (r.1, (off, data) :: r.2)
      else (buf, [])

/-- `SendDataToSerial` (main.cpp lines 116-135), in SIM mode: pack the 7
floats pitch, roll, yaw, canard 0-3 with 8 characters each into a 57-byte
zeroed buffer (`8 * 7 + 1`), then print the resulting C string as one line.
The value is the emitted line: the buffer's bytes up to the first NUL,
followed by the transport's line terminator. -/
noncomputable def SendDataToSerial (st : RocketState) : List Char :=
  let float_data_arr : List ℝ :=
    [st.pitch, st.roll, st.yaw, st.canard_rotations 0, st.canard_rotations 1,
     st.canard_rotations 2, st.canard_rotations 3]
  let rocketDataStr := (PackFloatsInStr fmtF (List.replicate 57 nul) 0 57 float_data_arr 8).1
  rocketDataStr.takeWhile (fun c => c ≠ nul) ++ ['\n']

lemma snprintfChars_length_le (size : ℕ) (t : List Char) :
    (snprintfChars size t).length ≤ size := by
  unfold snprintfChars
  by_cases h : size = 0 <;> simp [h]
  omega

lemma pack_cons_le (fmt : ℝ → List Char) (buf : List Char) (off size : ℕ)
    (f : ℝ) (rest : List ℝ) (W : ℕ) (h : W ≤ size) :
    PackFloatsInStr fmt buf off size (f :: rest) W =
      ((PackFloatsInStr fmt (writeAt buf off (snprintfChars size (fmt f)))
          (off + W) (size - W) rest W).1,
        (off, snprintfChars size (fmt f)) ::
          (PackFloatsInStr fmt (writeAt buf off (snprintfChars size (fmt f)))
            (off + W) (size - W) rest W).2) := by
  simp [PackFloatsInStr, if_pos h]

lemma pack_cons_lt (fmt : ℝ → List Char) (buf : List Char) (off size : ℕ)
    (f : ℝ) (rest : List ℝ) (W : ℕ) (h : ¬ W ≤ size) :
    PackFloatsInStr fmt buf off size (f :: rest) W = (buf, []) := by
  simp [PackFloatsInStr, if_neg h]

lemma pack_slots_bound (fmt : ℝ → List Char) (floats : List ℝ) :
    ∀ (buf : List Char) (off size W : ℕ),
      ∀ sl ∈ (PackFloatsInStr fmt buf off size floats W).2,
        off ≤ sl.1 ∧ sl.1 + sl.2.length ≤ off + size := by
  induction floats with
  | nil =>
      intro buf off size W sl hsl
      simp [PackFloatsInStr] at hsl
  | cons f rest ih =>
      intro buf off size W sl hsl
      by_cases hW : W ≤ size
      · rw [pack_cons_le fmt buf off size f rest W hW] at hsl
        rcases List.mem_cons.mp hsl with hsl | hsl
        · subst hsl
          have hlen := snprintfChars_length_le size (fmt f)
          exact ⟨le_refl _, by simp; omega⟩
        · obtain ⟨h1, h2⟩ := ih _ _ _ _ sl hsl
          exact ⟨by omega, by omega⟩
      · rw [pack_cons_lt fmt buf off size f rest W hW] at hsl
        simp at hsl

lemma pack_slots_offsets (fmt : ℝ → List Char) (floats : List ℝ) :
    ∀ (buf : List Char) (off size W i : ℕ) (sl : ℕ × List Char),
      (PackFloatsInStr fmt buf off size floats W).2[i]? = some sl →
      sl.1 = off + i * W := by
  induction floats with
  | nil =>
      intro buf off size W i sl h
      simp [PackFloatsInStr] at h
  | cons f rest ih =>
      intro buf off size W i sl h
      by_cases hW : W ≤ size
      · rw [pack_cons_le fmt buf off size f rest W hW] at h
        match i with
        | 0 =>
            simp only [List.getElem?_cons_zero, Option.some_inj] at h
            rw [← h]
            simp
        | i + 1 =>
            simp only [List.getElem?_cons_succ] at h
            rw [ih _ _ _ _ i sl h, Nat.succ_mul]
            omega
      · rw [pack_cons_lt fmt buf off size f rest W hW] at h
        simp at h

lemma pack_slots_length (fmt : ℝ → List Char) (floats : List ℝ) :
    ∀ (buf : List Char) (off size W : ℕ), 0 < W →
      (PackFloatsInStr fmt buf off size floats W).2.length
        = min floats.length (size / W) := by
  induction floats with
  | nil =>
      intro buf off size W _
      simp [PackFloatsInStr]
  | cons f rest ih =>
      intro buf off size W hW
      by_cases hle : W ≤ size
      · rw [pack_cons_le fmt buf off size f rest W hle]
        simp only [List.length_cons]
        rw [ih _ _ _ _ hW, Nat.div_eq_sub_div hW hle]
        omega
      · rw [pack_cons_lt fmt buf off size f rest W hle]
        rw [Nat.div_eq_of_lt (by omega)]
        simp

lemma writeAt_length (data : List Char) :
    ∀ (buf : List Char) (off : ℕ), (writeAt buf off data).length = buf.length := by
  induction data with
  | nil => intro buf off; rfl
  | cons c cs ih =>
      intro buf off
      show (writeAt (buf.set off c) (off + 1) cs).length = buf.length
      rw [ih, List.length_set]

lemma pack_buf_length (fmt : ℝ → List Char) (floats : List ℝ) :
    ∀ (buf : List Char) (off size W : ℕ),
      (PackFloatsInStr fmt buf off size floats W).1.length = buf.length := by
  induction floats with
  | nil => intro buf off size W; rfl
  | cons f rest ih =>
      intro buf off size W
      by_cases hW : W ≤ size
      · simp only [PackFloatsInStr, if_pos hW]
        rw [ih, writeAt_length]
      · simp [PackFloatsInStr, if_neg hW]

/-- Claim C5: for every formatting collaborator, destination buffer of size
`S`, float list and positive per-value width `W`: every byte stored by the
serializer lies strictly below offset `S` (and the buffer keeps its size);
the i-th packed float is stored at slot offset exactly `i * W`; and the
number of packed floats is `min (#floats) (S / W)` — packing stops silently
as soon as fewer than `W` bytes of budget remain. -/
theorem claim_C5_serializer_safety (fmt : ℝ → List Char) (S W : ℕ)
    (floats : List ℝ) (buf : List Char) (hbuf : buf.length = S) (hW : 0 < W) :
    (∀ sl ∈ (PackFloatsInStr fmt buf 0 S floats W).2, sl.1 + sl.2.length ≤ S) ∧
    ((PackFloatsInStr fmt buf 0 S floats W).1.length = S) ∧
    (∀ (i : ℕ) (sl : ℕ × List Char),
        (PackFloatsInStr fmt buf 0 S floats W).2[i]? = some sl → sl.1 = i * W) ∧
    (PackFloatsInStr fmt buf 0 S floats W).2.length = min floats.length (S / W) := by
  refine ⟨?_, ?_, ?_, ?_⟩
  · intro sl hsl
    have := (pack_slots_bound fmt floats buf 0 S W sl hsl).2
    omega
  · rw [pack_buf_length, hbuf]
  · intro i sl h
    have := pack_slots_offsets fmt floats buf 0 S W i sl h
    omega
  · exact pack_slots_length fmt floats buf 0 S W hW

/-- Witness for claim C5 with floats `[1, 2, 3]`, width 8 and a 10-byte
buffer: exactly `min 3 (10 / 8) = 1` float is packed. -/
theorem claim_C5_serializer_safety_witness :
    (0 < 8 ∧ (List.replicate 10 nul).length = 10) ∧
    (PackFloatsInStr (fun _ => ['x']) (List.replicate 10 nul) 0 10
        [(1 : ℝ), 2, 3] 8).2.length = min 3 (10 / 8) :=
  ⟨⟨by norm_num, by simp⟩,
    (claim_C5_serializer_safety (fun _ => ['x']) 10 8 [1, 2, 3]
      (List.replicate 10 nul) (by simp) (by norm_num)).2.2.2⟩

lemma writeAt_eq_of_le (data : List Char) :
    ∀ (buf : List Char) (off : ℕ), off + data.length ≤ buf.length →
      writeAt buf off data = buf.take off ++ data ++ buf.drop (off + data.length) := by
  induction data with
  | nil =>
      intro buf off _
      simp only [writeAt, List.length_nil, Nat.add_zero, List.append_nil]
      exact (List.take_append_drop off buf).symm
  | cons c cs ih =>
      intro buf off h
      simp only [List.length_cons] at h
      have hoff : off < buf.length := by omega
      have hset : buf.set off c = buf.take off ++ c :: buf.drop (off + 1) :=
        List.set_eq_take_cons_drop c hoff
      have hlen' : (off + 1) + cs.length ≤ (buf.set off c).length := by
        rw [List.length_set]; omega
      show writeAt (buf.set off c) (off + 1) cs = _
      rw [ih _ _ hlen', hset]
      have hT : (buf.take off).length = off := by
        rw [List.length_take]; omega
      have htake : (buf.take off ++ c :: buf.drop (off + 1)).take (off + 1)
          = buf.take off ++ [c] := by
        rw [List.take_append_eq_append_take,
          List.take_of_length_le (by omega : (buf.take off).length ≤ off + 1), hT]
        have h1 : off + 1 - off = 1 := by omega
        rw [h1]
        rfl
      have hdrop : (buf.take off ++ c :: buf.drop (off + 1)).drop (off + 1 + cs.length)
          = buf.drop (off + (cs.length + 1)) := by
        rw [List.drop_append_eq_append_drop,
          List.drop_eq_nil_of_le (by rw [hT]; omega), hT]
        have h1 : off + 1 + cs.length - off = cs.length + 1 := by omega
        rw [List.nil_append, h1, List.drop_succ_cons, List.drop_drop]
        congr 1
        omega
      rw [htake, hdrop]
      simp [List.append_assoc]

lemma snprintfChars_of_le (size : ℕ) (t : List Char) (h : t.length + 1 ≤ size) :
    snprintfChars size t = t ++ [nul] := by
  unfold snprintfChars
  rw [if_neg (by omega), List.take_of_length_le (by omega)]

/-- Packing `n` texts of exactly `W` characters each into a NUL-filled region
of exactly `n * W + 1` bytes yields their concatenation followed by one NUL. -/
lemma pack_buf_join (fmt : ℝ → List Char) (W : ℕ) :
    ∀ (floats : List ℝ) (buf : List Char) (off : ℕ),
      (∀ f ∈ floats, (fmt f).length = W) →
      buf.length = off + (floats.length * W + 1) →
      buf.drop off = List.replicate (floats.length * W + 1) nul →
      (PackFloatsInStr fmt buf off (floats.length * W + 1) floats W).1
        = buf.take off ++ (floats.map fun f => fmt f).flatten ++ [nul] := by
  intro floats
  induction floats with
  | nil =>
      intro buf off _ hblen hdrop
      show buf = _
      simp only [List.length_nil, Nat.zero_mul, Nat.zero_add] at hdrop
      conv_lhs => rw [← List.take_append_drop off buf]
      rw [hdrop]
      simp
  | cons f rest ih =>
      intro buf off hlen hblen hdrop
      simp only [List.length_cons] at hblen hdrop ⊢
      have hfmt : (fmt f).length = W := hlen f (List.mem_cons_self f rest)
      have hmul : 1 * W ≤ (rest.length + 1) * W := Nat.mul_le_mul_right W (by omega)
      have hWle : W ≤ (rest.length + 1) * W + 1 := by omega
      rw [pack_cons_le fmt buf off _ f rest W hWle]
      have hdata : snprintfChars ((rest.length + 1) * W + 1) (fmt f) = fmt f ++ [nul] :=
        snprintfChars_of_le _ _ (by omega)
      have hsz : (rest.length + 1) * W + 1 - W = rest.length * W + 1 := by
        rw [Nat.succ_mul]; omega
      have hbuf' : writeAt buf off (fmt f ++ [nul])
          = buf.take off ++ (fmt f ++ [nul]) ++ buf.drop (off + (W + 1)) := by
        have hb := writeAt_eq_of_le (fmt f ++ [nul]) buf off
          (by simp [hfmt]; rw [hblen, Nat.succ_mul]; omega)
        simpa [hfmt] using hb
      have hassoc : buf.take off ++ (fmt f ++ [nul]) ++ buf.drop (off + (W + 1))
          = (buf.take off ++ fmt f) ++ ([nul] ++ buf.drop (off + (W + 1))) := by
        simp [List.append_assoc]
      have hTlen : (buf.take off ++ fmt f).length = off + W := by
        rw [List.length_append, List.length_take, hfmt, hblen]
        have : min off (off + ((rest.length + 1) * W + 1)) = off := by omega
        rw [this]
      have hdropbig : buf.drop (off + (W + 1)) = List.replicate (rest.length * W) nul := by
        have h1 : buf.drop (off + (W + 1)) = (buf.drop off).drop (W + 1) := by
          rw [List.drop_drop]
        rw [h1, hdrop, List.drop_replicate]
        have : (rest.length + 1) * W + 1 - (W + 1) = rest.length * W := by
          rw [Nat.succ_mul]; omega
        rw [this]
      have hblen' : (writeAt buf off (fmt f ++ [nul])).length
          = (off + W) + (rest.length * W + 1) := by
        rw [writeAt_length, hblen, Nat.succ_mul]; omega
      have hdrop' : (writeAt buf off (fmt f ++ [nul])).drop (off + W)
          = List.replicate (rest.length * W + 1) nul := by
        rw [hbuf', hassoc, List.drop_left' hTlen, hdropbig]
        simp [List.replicate_succ]
      have htake' : (writeAt buf off (fmt f ++ [nul])).take (off + W)
          = buf.take off ++ fmt f := by
        rw [hbuf', hassoc, List.take_left' hTlen]
      rw [hdata, hsz,
        ih (writeAt buf off (fmt f ++ [nul])) (off + W)
          (fun g hg => hlen g (List.mem_cons_of_mem f hg)) hblen' hdrop',
        htake']
      simp [List.append_assoc]

lemma fmtF_one : fmtF 1 = ['1', '.', '0', '0', '0', '0', '0', '0'] := by
  have hfl : ⌊(1 : ℝ) * 1000000 + 1 / 2⌋ = 1000000 := by
    rw [Int.floor_eq_iff]
    norm_num
  unfold fmtF fmtAbs
  rw [if_neg (by norm_num), hfl]
  rfl

lemma fmtF_two : fmtF 2 = ['2', '.', '0', '0', '0', '0', '0', '0'] := by
  have hfl : ⌊(2 : ℝ) * 1000000 + 1 / 2⌋ = 2000000 := by
    rw [Int.floor_eq_iff]
    norm_num
  unfold fmtF fmtAbs
  rw [if_neg (by norm_num), hfl]
  rfl

lemma fmtF_three : fmtF 3 = ['3', '.', '0', '0', '0', '0', '0', '0'] := by
  have hfl : ⌊(3 : ℝ) * 1000000 + 1 / 2⌋ = 3000000 := by
    rw [Int.floor_eq_iff]
    norm_num
  unfold fmtF fmtAbs
  rw [if_neg (by norm_num), hfl]
  rfl

/-- Claim C10: with floats `[1, 2, 3]`, width 8 and a 25-byte buffer, the
serializer produces the three concatenated 8-character `"%f"` texts followed
by the NUL terminator; with a 10-byte buffer it packs only the first float
(one store, at offset 0) and the rest of the buffer stays zeroed. -/
theorem claim_C10_serializer_examples :
    fmtF 1 = ['1', '.', '0', '0', '0', '0', '0', '0'] ∧
    fmtF 2 = ['2', '.', '0', '0', '0', '0', '0', '0'] ∧
    fmtF 3 = ['3', '.', '0', '0', '0', '0', '0', '0'] ∧
    (PackFloatsInStr fmtF (List.replicate 25 nul) 0 25 [1, 2, 3] 8).1
      = fmtF 1 ++ fmtF 2 ++ fmtF 3 ++ [nul] ∧
    (PackFloatsInStr fmtF (List.replicate 10 nul) 0 10 [1, 2, 3] 8).1
      = fmtF 1 ++ [nul, nul] ∧
    ((PackFloatsInStr fmtF (List.replicate 10 nul) 0 10 [1, 2, 3] 8).2).map Prod.fst
      = [0] := by
  have hlen : ∀ f ∈ [(1 : ℝ), 2, 3], (fmtF f).length = 8 := by
    intro f hf
    simp only [List.mem_cons, List.not_mem_nil, or_false] at hf
    rcases hf with rfl | rfl | rfl <;>
      simp [fmtF_one, fmtF_two, fmtF_three]
  have h25 := pack_buf_join fmtF 8 [1, 2, 3] (List.replicate 25 nul) 0 hlen
    (by simp) (by norm_num)
  norm_num at h25
  have h10a : PackFloatsInStr fmtF (List.replicate 10 nul) 0 10 [(1 : ℝ), 2, 3] 8
      = ((writeAt (List.replicate 10 nul) 0 (snprintfChars 10 (fmtF 1)), [(0, snprintfChars 10 (fmtF 1))]) :
          List Char × List (ℕ × List Char)) := by
    rw [pack_cons_le fmtF _ 0 10 1 [2, 3] 8 (by norm_num),
      pack_cons_lt fmtF _ 8 2 2 [3] 8 (by norm_num)]
  refine ⟨fmtF_one, fmtF_two, fmtF_three, ?_, ?_, ?_⟩
  · rw [h25]
    simp
  · rw [h10a, fmtF_one]
    rfl
  · rw [h10a]
    rfl

lemma intChars_lt_ten (n : ℕ) (h : n < 10) : intChars n = [digitChar n] := by
  show (if n < 10 then [digitChar n]
      else intCharsAux n (n / 10) ++ [digitChar (n % 10)]) = [digitChar n]
  rw [if_pos h]

lemma digitChar_ne_nul (n : ℕ) : digitChar n ≠ nul := by
  unfold digitChar nul
  have hm : n % 10 < 10 := Nat.mod_lt _ (by norm_num)
  have hall : ∀ m : ℕ, m < 10 → Char.ofNat (48 + m) ≠ Char.ofNat 0 := by decide
  exact hall (n % 10) hm

lemma fmtF_spec (x : ℝ) (h0 : 0 ≤ x) (h7 : x < 7) :
    (fmtF x).length = 8 ∧ nul ∉ fmtF x := by
  have hnn : ¬ x < 0 := not_lt.mpr h0
  have hip : (⌊x * 1000000 + 1 / 2⌋).toNat / 1000000 < 10 := by
    have hlt : ⌊x * 1000000 + 1 / 2⌋ < 10000000 := by
      rw [Int.floor_lt]
      push_cast
      nlinarith
    have hle : (⌊x * 1000000 + 1 / 2⌋).toNat ≤ 9999999 :=
      Int.toNat_le.mpr (by omega)
    rw [Nat.div_lt_iff_lt_mul (by norm_num)]
    omega
  unfold fmtF fmtAbs
  rw [if_neg hnn, intChars_lt_ten _ hip]
  constructor
  · simp [fracChars]
  · intro hm
    simp only [fracChars, List.cons_append, List.nil_append, List.mem_cons,
      List.not_mem_nil, or_false] at hm
    rcases hm with h | h | h | h | h | h | h | h
    · exact digitChar_ne_nul _ h.symm
    · exact absurd h (by decide)
    · exact digitChar_ne_nul _ h.symm
    · exact digitChar_ne_nul _ h.symm
    · exact digitChar_ne_nul _ h.symm
    · exact digitChar_ne_nul _ h.symm
    · exact digitChar_ne_nul _ h.symm
    · exact digitChar_ne_nul _ h.symm

lemma takeWhile_append_nul (l : List Char) (h : nul ∉ l) :
    (l ++ [nul]).takeWhile (fun c => c ≠ nul) = l := by
  induction l with
  | nil =>
      rw [List.nil_append, List.takeWhile_cons_of_neg (by simp)]
  | cons c cs ih =>
      have hc : c ≠ nul := by
        intro hh
        exact h (by simp [hh])
      have hcs : nul ∉ cs := fun hm => h (List.mem_cons_of_mem _ hm)
      rw [List.cons_append, List.takeWhile_cons_of_pos (by simpa using hc), ih hcs]

lemma run_anglesOK (inputs : List TickInput) :
    (angleOK (run inputs).pitch ∧ angleOK (run inputs).roll ∧
        angleOK (run inputs).yaw) ∧
      ∀ i : Fin 4, angleOK ((run inputs).canard_rotations i) := by
  have hinit : angleOK initState.pitch ∧ angleOK initState.roll ∧ angleOK initState.yaw :=
    ⟨⟨le_refl 0, two_pi_pos⟩, ⟨le_refl 0, two_pi_pos⟩, ⟨le_refl 0, two_pi_pos⟩⟩
  have hc : ∀ i : Fin 4, angleOK (initState.canard_rotations i) :=
    fun i => ⟨le_refl 0, two_pi_pos⟩
  exact runFrom_anglesOK inputs initState hinit hc

/-- Claim C8: in telemetry (SIM) mode, the line emitted on a tick is exactly
the 7 `"%f"` texts of pitch, roll, yaw and canard 0-3 (in that order, no
delimiters) followed by the line terminator; in every reachable state each of
those 7 fields is exactly 8 characters, so the whole line is 57 bytes. -/
theorem claim_C8_telemetry_line (inputs : List TickInput) :
    SendDataToSerial (run inputs)
      = fmtF (run inputs).pitch ++ fmtF (run inputs).roll ++ fmtF (run inputs).yaw
        ++ fmtF ((run inputs).canard_rotations 0) ++ fmtF ((run inputs).canard_rotations 1)
        ++ fmtF ((run inputs).canard_rotations 2) ++ fmtF ((run inputs).canard_rotations 3)
        ++ ['\n'] ∧
    ((fmtF (run inputs).pitch).length = 8 ∧ (fmtF (run inputs).roll).length = 8 ∧
      (fmtF (run inputs).yaw).length = 8 ∧
      ∀ i : Fin 4, (fmtF ((run inputs).canard_rotations i)).length = 8) ∧
    (SendDataToSerial (run inputs)).length = 57 := by
  obtain ⟨⟨hp, hr, hy⟩, hcan⟩ := run_anglesOK inputs
  set st := run inputs with hst
  have h2pi7 : (2 : ℝ) * π < 7 := by nlinarith [pi_lt_d2]
  have hspec : ∀ a : ℝ, angleOK a → (fmtF a).length = 8 ∧ nul ∉ fmtF a :=
    fun a ha => fmtF_spec a ha.1 (lt_trans ha.2 h2pi7)
  have hlen : ∀ f ∈ [st.pitch, st.roll, st.yaw, st.canard_rotations 0,
      st.canard_rotations 1, st.canard_rotations 2, st.canard_rotations 3],
      (fmtF f).length = 8 := by
    intro f hf
    simp only [List.mem_cons, List.not_mem_nil, or_false] at hf
    rcases hf with rfl | rfl | rfl | rfl | rfl | rfl | rfl
    · exact (hspec _ hp).1
    · exact (hspec _ hr).1
    · exact (hspec _ hy).1
    · exact (hspec _ (hcan 0)).1
    · exact (hspec _ (hcan 1)).1
    · exact (hspec _ (hcan 2)).1
    · exact (hspec _ (hcan 3)).1
  have hjoin := pack_buf_join fmtF 8
    [st.pitch, st.roll, st.yaw, st.canard_rotations 0, st.canard_rotations 1,
      st.canard_rotations 2, st.canard_rotations 3]
    (List.replicate 57 nul) 0 hlen (by simp) (by simp)
  norm_num at hjoin
  have hnul : nul ∉ fmtF st.pitch ++ fmtF st.roll ++ fmtF st.yaw
      ++ fmtF (st.canard_rotations 0) ++ fmtF (st.canard_rotations 1)
      ++ fmtF (st.canard_rotations 2) ++ fmtF (st.canard_rotations 3) := by
    simp only [List.mem_append, not_or]
    exact ⟨⟨⟨⟨⟨⟨(hspec _ hp).2, (hspec _ hr).2⟩, (hspec _ hy).2⟩,
      (hspec _ (hcan 0)).2⟩, (hspec _ (hcan 1)).2⟩, (hspec _ (hcan 2)).2⟩,
      (hspec _ (hcan 3)).2⟩
  have hline : SendDataToSerial st
      = fmtF st.pitch ++ fmtF st.roll ++ fmtF st.yaw
        ++ fmtF (st.canard_rotations 0) ++ fmtF (st.canard_rotations 1)
        ++ fmtF (st.canard_rotations 2) ++ fmtF (st.canard_rotations 3) ++ ['\n'] := by
    simp only [SendDataToSerial]
    rw [hjoin]
    have hre : fmtF st.pitch ++ (fmtF st.roll ++ (fmtF st.yaw
          ++ (fmtF (st.canard_rotations 0) ++ (fmtF (st.canard_rotations 1)
          ++ (fmtF (st.canard_rotations 2) ++ (fmtF (st.canard_rotations 3) ++ [nul]))))))
        = (fmtF st.pitch ++ fmtF st.roll ++ fmtF st.yaw
            ++ fmtF (st.canard_rotations 0) ++ fmtF (st.canard_rotations 1)
            ++ fmtF (st.canard_rotations 2) ++ fmtF (st.canard_rotations 3)) ++ [nul] := by
      simp [List.append_assoc]
    rw [hre, takeWhile_append_nul _ hnul]
  refine ⟨hline, ⟨(hspec _ hp).1, (hspec _ hr).1, (hspec _ hy).1, fun i => (hspec _ (hcan i)).1⟩, ?_⟩
  rw [hline]
  simp [List.length_append, (hspec _ hp).1, (hspec _ hr).1, (hspec _ hy).1,
    (hspec _ (hcan 0)).1, (hspec _ (hcan 1)).1, (hspec _ (hcan 2)).1,
    (hspec _ (hcan 3)).1]

end StabSys
